import Mathlib

/-!
# Verification of the 2D polygon editor core

Shallow embedding of the polygon store (`src/App.tsx`) and the 2D
interaction engine (`src/components/Floor2D.tsx`) of the room-blueprint
editor.  JavaScript numbers are modelled as rationals (`ℚ`); JavaScript
array indices as integers (`ℤ`), since callers may in principle pass any
number.  Distances that the source computes with `Math.hypot` are
modelled by their squares wherever the source only compares them (order
is preserved, `Math.hypot` being monotone in the squared sum); where the
source divides by a `Math.hypot` value (edge-drag normalisation) the
length is passed explicitly, characterised by `len * len = ex² + ey²`.
Squaring written `** 2` in the source appears as self-multiplication.
-/

/-- A 2D point `{x, y}` (`Vec2` in `src/types.ts`), world units in meters. -/
structure Vec2 where
  x : ℚ
  y : ℚ
deriving DecidableEq, Repr

namespace Vec2

/-- Componentwise addition, used to state how deltas are applied. -/
def add (a b : Vec2) : Vec2 := ⟨a.x + b.x, a.y + b.y⟩

end Vec2

/-! ## Polygon store (`src/App.tsx`)

The store is a React `useState` list; every operation is the pure
function passed to `setVertices`. -/

/-- JavaScript `Array.prototype.map` with the element index available to
the callback, generalised over the starting index for proofs. -/
def mapIdxFrom (f : ℕ → Vec2 → Vec2) : ℕ → List Vec2 → List Vec2
  | _, [] => []
  | s, a :: as => f s a :: mapIdxFrom f (s + 1) as

/-- JavaScript `Array.prototype.filter` with the element index available
to the callback, generalised over the starting index for proofs. -/
def filterIdxFrom (keep : ℕ → Bool) : ℕ → List Vec2 → List Vec2
  | _, [] => []
  | s, a :: as =>
    if keep s then a :: filterIdxFrom keep (s + 1) as else filterIdxFrom keep (s + 1) as

/-- Source `updateVertex` (`App.tsx`):
`setVertices(prev => prev.map((p, i) => (i === index ? v : p)))`. -/
def updateVertex (prev : List Vec2) (index : ℤ) (v : Vec2) : List Vec2 :=
  mapIdxFrom (fun i p => if (i : ℤ) = index then v else p) 0 prev

/-- Source `addVertex` (`App.tsx`): `setVertices(prev => [...prev, v])`. -/
def addVertex (prev : List Vec2) (v : Vec2) : List Vec2 :=
  prev ++ [v]

/-- Source `deleteVertex` (`App.tsx`):
`if (prev.length <= 3) return prev; return prev.filter((_, i) => i !== index)`. -/
def deleteVertex (prev : List Vec2) (index : ℤ) : List Vec2 :=
  if prev.length ≤ 3 then prev
  else filterIdxFrom (fun i => decide ((i : ℤ) ≠ index)) 0 prev

/-- Source `insertVertex` (`App.tsx`):
`const next = prev.slice(); next.splice(index, 0, v); return next`.
Per the ECMAScript specification of `Array.prototype.splice`, the start
index is clamped: `actualStart = index < 0 ? max(len + index, 0) : min(index, len)`. -/
def insertVertex (prev : List Vec2) (index : ℤ) (v : Vec2) : List Vec2 :=
  let len : ℤ := prev.length
  let actual : ℤ := if index < 0 then max (len + index) 0 else min index len
  prev.insertIdx actual.toNat v

/-- The initial polygon of `App.tsx`: the default 4-vertex square
`[(-2,-1.5), (2,-1.5), (2,1.5), (-2,1.5)]`. -/
def defaultVertices : List Vec2 :=
  [⟨-2, -3/2⟩, ⟨2, -3/2⟩, ⟨2, 3/2⟩, ⟨-2, 3/2⟩]

/-! ## Coordinate transform (`Floor2D.tsx`, `worldToCanvas` / `canvasToWorld`)

The component closes over `pxPerM` (zoom scale) and receives the canvas
centre `(cx, cy)` (`rect.width / 2 + offset.x`, `rect.height / 2 + offset.y`);
here both are explicit parameters. -/

/-- Source `worldToCanvas(v, cx, cy) = [cx + v.x * pxPerM, cy - v.y * pxPerM]`
(world Y-up to screen Y-down). -/
def worldToCanvas (pxPerM : ℚ) (v : Vec2) (cx cy : ℚ) : ℚ × ℚ :=
  (cx + v.x * pxPerM, cy - v.y * pxPerM)

/-- Source `canvasToWorld(x, y, cx, cy) = { x: (x - cx) / pxPerM, y: (cy - y) / pxPerM }`. -/
def canvasToWorld (pxPerM : ℚ) (x y cx cy : ℚ) : Vec2 :=
  ⟨(x - cx) / pxPerM, (cy - y) / pxPerM⟩

/-- Lower zoom bound `MIN_PX_PER_M = 20` (`Floor2D.tsx`). -/
def MIN_PX_PER_M : ℚ := 20

/-- Upper zoom bound `MAX_PX_PER_M = 400` (`Floor2D.tsx`). -/
def MAX_PX_PER_M : ℚ := 400

/-- Vertex disc radius `POINT_R_PX = 8` (`Floor2D.tsx`). -/
def POINT_R_PX : ℚ := 8

/-- The wheel handler `onWheel` of `Floor2D.tsx`.  Inputs: current scale
`pxPerM`, current pan `offset`, half canvas extents
`(halfW, halfH) = (rect.width / 2, rect.height / 2)`, pointer position
`(px, py)`, and the zoom `factor` standing for the (positive, transcendental)
value `Math.exp(-e.deltaY * 0.001)`.  Returns the new scale and the new
offset, exactly as the handler's `setPxPerM` / `setOffset` calls produce. -/
def onWheel (pxPerM : ℚ) (offset : Vec2) (halfW halfH px py factor : ℚ) :
    ℚ × Vec2 :=
  let cx := halfW + offset.x
  let cy := halfH + offset.y
  let worldBefore := canvasToWorld pxPerM px py cx cy
  let nextScale := min MAX_PX_PER_M (max MIN_PX_PER_M (pxPerM * factor))
  let newCx := halfW + offset.x
  let newCy := halfH + offset.y
  let newPx := newCx + worldBefore.x * nextScale
  let newPy := newCy - worldBefore.y * nextScale
  (nextScale, ⟨offset.x + (px - newPx), offset.y + (py - newPy)⟩)

/-! ## Hit-testing and geometry (`Floor2D.tsx`) -/

/-- Squared screen-space distance from vertex `v` (drawn with the
transform `(pxPerM, cx, cy)`) to the screen point `(px, py)`:
`(vx - px) ** 2 + (vy - py) ** 2` in `getNearestIndex`. -/
def nearestD2 (pxPerM cx cy px py : ℚ) (v : Vec2) : ℚ :=
  ((worldToCanvas pxPerM v cx cy).1 - px) * ((worldToCanvas pxPerM v cx cy).1 - px) +
    ((worldToCanvas pxPerM v cx cy).2 - py) * ((worldToCanvas pxPerM v cx cy).2 - py)

/-- One iteration of the `vertices.forEach` loop in `getNearestIndex`:
`if (d2 <= bestD2) { bestD2 = d2; best = i }`. -/
def nearestStep (pxPerM cx cy px py : ℚ) (acc : ℤ × ℚ) (iv : ℕ × Vec2) : ℤ × ℚ :=
  if nearestD2 pxPerM cx cy px py iv.2 ≤ acc.2 then ((iv.1 : ℤ), nearestD2 pxPerM cx cy px py iv.2)
  else acc

/-- Source `getNearestIndex` (`Floor2D.tsx`): scan all vertices with
`best = -1, bestD2 = (POINT_R_PX + 6) ** 2`, return `best` if
nonnegative, else `null`. -/
def getNearestIndex (pxPerM : ℚ) (vertices : List Vec2) (cx cy px py : ℚ) : Option ℕ :=
  let r := vertices.enum.foldl (nearestStep pxPerM cx cy px py)
    (-1, (POINT_R_PX + 6) * (POINT_R_PX + 6))
  if 0 ≤ r.1 then some r.1.toNat else none

/-- Term `c1 = vx * wx + vy * wy` of `pointToSegmentDistance`. -/
def segC1 (px py x1 y1 x2 y2 : ℚ) : ℚ :=
  (x2 - x1) * (px - x1) + (y2 - y1) * (py - y1)

/-- Term `c2 = vx * vx + vy * vy` of `pointToSegmentDistance`. -/
def segC2 (x1 y1 x2 y2 : ℚ) : ℚ :=
  (x2 - x1) * (x2 - x1) + (y2 - y1) * (y2 - y1)

/-- Source `pointToSegmentDistance` (`Floor2D.tsx`), with every `Math.hypot`
replaced by the squared distance (the function's callers only compare
its result against other distances, and squaring is order-preserving).
The branch structure is exactly the source's: `c1 <= 0` falls back to
the first endpoint, `c2 <= c1` to the second, and only the remaining
branch divides by `c2`. -/
def pointToSegmentDistanceSq (px py x1 y1 x2 y2 : ℚ) : ℚ :=
  if segC1 px py x1 y1 x2 y2 ≤ 0 then (px - x1) * (px - x1) + (py - y1) * (py - y1)
  else if segC2 x1 y1 x2 y2 ≤ segC1 px py x1 y1 x2 y2 then
    (px - x2) * (px - x2) + (py - y2) * (py - y2)
  else
    let b := segC1 px py x1 y1 x2 y2 / segC2 x1 y1 x2 y2
    let bx := x1 + b * (x2 - x1)
    let byy := y1 + b * (y2 - y1)
    (px - bx) * (px - bx) + (py - byy) * (py - byy)

/-- The denominator `ab2 = abx * abx + aby * aby || 1` of
`projectPointOnSegment`: JavaScript `|| 1` replaces a zero (falsy)
squared length by 1. -/
def projDenom (a b : Vec2) : ℚ :=
  if (b.x - a.x) * (b.x - a.x) + (b.y - a.y) * (b.y - a.y) = 0 then 1
  else (b.x - a.x) * (b.x - a.x) + (b.y - a.y) * (b.y - a.y)

/-- Source `projectPointOnSegment(p, a, b)` (`Floor2D.tsx`): clamped scalar
projection of `p` onto segment `a`–`b`,
`t = clamp((ap·ab) / (ab·ab || 1), 0, 1)`, result `a + ab * t`. -/
def projectPointOnSegment (p a b : Vec2) : Vec2 :=
  let abx := b.x - a.x
  let aby := b.y - a.y
  let apx := p.x - a.x
  let apy := p.y - a.y
  let t := (apx * abx + apy * aby) / projDenom a b
  let t2 := max 0 (min 1 t)
  ⟨a.x + abx * t2, a.y + aby * t2⟩

/-- The armed-insert branch of `onPointerDown` (`Floor2D.tsx`): with add
mode on and edge `eIdx` under the cursor, project the cursor's world
position onto edge `(eIdx, eIdx+1 mod n)` and insert the projection at
the edge's second endpoint index via `onInsert(j, proj)`. -/
def armedInsertPointerDown (pxPerM : ℚ) (vertices : List Vec2) (eIdx : ℕ)
    (cx cy px py : ℚ) : List Vec2 :=
  let j := (eIdx + 1) % vertices.length
  let pWorld := canvasToWorld pxPerM px py cx cy
  let proj := projectPointOnSegment pWorld (vertices.getD eIdx ⟨0, 0⟩) (vertices.getD j ⟨0, 0⟩)
  insertVertex vertices (j : ℤ) proj

/-! ## Edge drag (`onPointerMove`, `dragEdge` branch, Ctrl not held) -/

/-- The applied delta of the edge-drag branch without Ctrl: the raw
world-space pointer delta `(dx, dy)` projected onto the edge's unit
normal `(nx, ny) = (-ey / len, ex / len)`.  `len` stands for
`Math.hypot(ex, ey) || 1`, passed explicitly because the square root is
irrational; it is characterised in the theorems by
`len * len = ex * ex + ey * ey ∧ 0 < len` (or `len = 1` for a
zero-length edge). -/
def edgeDragDelta (ex ey dx dy len : ℚ) : ℚ × ℚ :=
  let nx := -ey / len
  let ny := ex / len
  let proj := dx * nx + dy * ny
  (nx * proj, ny * proj)

/-- The two `onMove` calls of the edge-drag branch: both endpoints of
edge `(i, j)` receive the same projected delta; both reads
`vertices[i]` / `vertices[j]` use the render's vertex list. -/
def edgeDragMove (vertices : List Vec2) (i : ℕ) (dx dy len : ℚ) : List Vec2 :=
  let j := (i + 1) % vertices.length
  let ex := (vertices.getD j ⟨0, 0⟩).x - (vertices.getD i ⟨0, 0⟩).x
  let ey := (vertices.getD j ⟨0, 0⟩).y - (vertices.getD i ⟨0, 0⟩).y
  let d := edgeDragDelta ex ey dx dy len
  let l1 := updateVertex vertices (i : ℤ)
    ⟨(vertices.getD i ⟨0, 0⟩).x + d.1, (vertices.getD i ⟨0, 0⟩).y + d.2⟩
  updateVertex l1 (j : ℤ)
    ⟨(vertices.getD j ⟨0, 0⟩).x + d.1, (vertices.getD j ⟨0, 0⟩).y + d.2⟩

/-! ## Vertex-drag merge (`onPointerMove` tail + `onPointerUp`) -/

/-- Merge snap radius `MERGE_SNAP_PX = 10` (`Floor2D.tsx`). -/
def MERGE_SNAP_PX : ℚ := 10

/-- One iteration of the merge-candidate scan in `onPointerMove`: skip
the dragged index, otherwise `if (d <= bestD) { bestD = d; candidate = i }`
(distances compared via their squares). -/
def mergeStep (pxPerM cx cy tx ty : ℚ) (dragIndex : ℕ) (acc : Option ℕ × ℚ)
    (iv : ℕ × Vec2) : Option ℕ × ℚ :=
  if iv.1 = dragIndex then acc
  else if nearestD2 pxPerM cx cy tx ty iv.2 ≤ acc.2 then
    (some iv.1, nearestD2 pxPerM cx cy tx ty iv.2)
  else acc

/-- The merge-candidate scan of `onPointerMove`: among all vertices
other than `dragIndex`, the last one whose screen distance to the
dragged target's screen position `(tx, ty)` is within `MERGE_SNAP_PX`
and minimal so far. -/
def findMergeCandidate (pxPerM : ℚ) (vertices : List Vec2) (dragIndex : ℕ)
    (cx cy tx ty : ℚ) : Option ℕ :=
  (vertices.enum.foldl (mergeStep pxPerM cx cy tx ty dragIndex)
    (none, MERGE_SNAP_PX * MERGE_SNAP_PX)).1

/-- The vertex-drag tail of `onPointerMove`: `onMove(dragIndex, target)`,
then the merge-candidate scan against the render's (pre-move) vertex
list, then — when a candidate is found — the visual snap
`onMove(dragIndex, vertices[candidate])`, again reading the render's
list.  Returns the resulting store and the recorded candidate. -/
def dragMoveMergeStep (pxPerM : ℚ) (vertices : List Vec2) (dragIndex : ℕ)
    (target : Vec2) (cx cy : ℚ) : List Vec2 × Option ℕ :=
  let l1 := updateVertex vertices (dragIndex : ℤ) target
  let t := worldToCanvas pxPerM target cx cy
  let cand := findMergeCandidate pxPerM vertices dragIndex cx cy t.1 t.2
  match cand with
  | some c => (updateVertex l1 (dragIndex : ℤ) (vertices.getD c ⟨0, 0⟩), some c)
  | none => (l1, none)

/-- Source `onPointerUp` (`Floor2D.tsx`): with a pending merge candidate,
`onDelete(dragIndex)`; otherwise the store is left alone. -/
def pointerUpMerge (vertices : List Vec2) (dragIndex : ℕ) (cand : Option ℕ) : List Vec2 :=
  match cand with
  | some _ => deleteVertex vertices (dragIndex : ℤ)
  | none => vertices

/-- A final drag-move event followed by pointer release: the composition
of `dragMoveMergeStep` and `pointerUpMerge`. -/
def dragReleaseWithMerge (pxPerM : ℚ) (vertices : List Vec2) (dragIndex : ℕ)
    (target : Vec2) (cx cy : ℚ) : List Vec2 :=
  let st := dragMoveMergeStep pxPerM vertices dragIndex target cx cy
  pointerUpMerge st.1 dragIndex st.2

/-! ## Theorems -/

/-! ### Basic facts about the indexed map/filter helpers -/

theorem length_mapIdxFrom (f : ℕ → Vec2 → Vec2) :
    ∀ (s : ℕ) (l : List Vec2), (mapIdxFrom f s l).length = l.length
  | _, [] => rfl
  | s, _ :: as => by simp [mapIdxFrom, length_mapIdxFrom f (s + 1) as]

theorem getElem_mapIdxFrom (f : ℕ → Vec2 → Vec2) :
    ∀ (l : List Vec2) (s k : ℕ) (hk : k < l.length)
      (hk' : k < (mapIdxFrom f s l).length),
      (mapIdxFrom f s l)[k] = f (s + k) l[k]
  | [], _, k, hk, _ => absurd hk (by simp)
  | a :: as, s, 0, _, _ => by simp [mapIdxFrom]
  | a :: as, s, k + 1, hk, hk' => by
    have hk2 : k < as.length := by simpa using hk
    have hk2' : k < (mapIdxFrom f (s + 1) as).length := by
      rw [length_mapIdxFrom]; exact hk2
    show (mapIdxFrom f (s + 1) as)[k] = f (s + (k + 1)) (a :: as)[k + 1]
    rw [getElem_mapIdxFrom f as (s + 1) k hk2 hk2']
    simp only [List.getElem_cons_succ]
    congr 1
    omega

theorem length_updateVertex (l : List Vec2) (index : ℤ) (v : Vec2) :
    (updateVertex l index v).length = l.length :=
  length_mapIdxFrom _ 0 l

theorem getElem_updateVertex (l : List Vec2) (index : ℤ) (v : Vec2) (k : ℕ)
    (hk : k < l.length) (hk' : k < (updateVertex l index v).length) :
    (updateVertex l index v)[k] = if (k : ℤ) = index then v else l[k] := by
  simp only [updateVertex]
  rw [getElem_mapIdxFrom _ l 0 k hk hk']
  simp

theorem getD_updateVertex (l : List Vec2) (index : ℤ) (v d : Vec2) (k : ℕ) :
    (updateVertex l index v).getD k d =
      if k < l.length then (if (k : ℤ) = index then v else l.getD k d) else d := by
  rcases Nat.lt_or_ge k l.length with hk | hk
  · have hk' : k < (updateVertex l index v).length := by
      rw [length_updateVertex]; exact hk
    rw [List.getD_eq_getElem _ _ hk', getElem_updateVertex l index v k hk hk',
      if_pos hk, List.getD_eq_getElem _ _ hk]
  · rw [List.getD_eq_default, if_neg (by omega)]
    rw [length_updateVertex]
    exact hk

theorem updateVertex_out_of_range (l : List Vec2) (index : ℤ) (v : Vec2)
    (h : index < 0 ∨ (l.length : ℤ) ≤ index) : updateVertex l index v = l := by
  apply List.ext_getElem (length_updateVertex l index v)
  intro k hk' hk
  rw [getElem_updateVertex l index v k hk hk', if_neg (by omega)]

theorem filterIdxFrom_ne_out :
    ∀ (s : ℕ) (l : List Vec2) (index : ℤ),
      (index < s ∨ (s + l.length : ℤ) ≤ index) →
      filterIdxFrom (fun i => decide ((i : ℤ) ≠ index)) s l = l
  | _, [], _, _ => rfl
  | s, a :: as, index, h => by
    have hlen : ((a :: as).length : ℤ) = (as.length : ℤ) + 1 := by simp
    have hne : ((s : ℤ) ≠ index) := by omega
    simp only [filterIdxFrom, decide_eq_true_eq, if_pos hne, List.cons.injEq, true_and]
    exact filterIdxFrom_ne_out (s + 1) as index (by omega)

theorem filterIdxFrom_ne_eraseIdx :
    ∀ (s k : ℕ) (l : List Vec2) (index : ℤ),
      (s + k : ℤ) = index → k < l.length →
      filterIdxFrom (fun i => decide ((i : ℤ) ≠ index)) s l = l.eraseIdx k
  | s, 0, a :: as, index, heq, _ => by
    have hs : ¬ ((s : ℤ) ≠ index) := by omega
    simp only [filterIdxFrom, decide_eq_true_eq, if_neg hs, List.eraseIdx_cons_zero]
    exact filterIdxFrom_ne_out (s + 1) as index (Or.inl (by omega))
  | s, k + 1, a :: as, index, heq, hk => by
    have hs : ((s : ℤ) ≠ index) := by omega
    simp only [filterIdxFrom, decide_eq_true_eq, if_pos hs, List.eraseIdx_cons_succ,
      List.cons.injEq, true_and]
    exact filterIdxFrom_ne_eraseIdx (s + 1) k as index (by omega) (by simpa using hk)

theorem deleteVertex_noop_of_le_three (l : List Vec2) (index : ℤ)
    (h : l.length ≤ 3) : deleteVertex l index = l := by
  rw [deleteVertex, if_pos h]

theorem deleteVertex_eq_eraseIdx (l : List Vec2) (index : ℤ) (k : ℕ)
    (h3 : 3 < l.length) (hk : (k : ℤ) = index) (hklen : k < l.length) :
    deleteVertex l index = l.eraseIdx k := by
  rw [deleteVertex, if_neg (by omega)]
  exact filterIdxFrom_ne_eraseIdx 0 k l index (by omega) hklen

theorem deleteVertex_length_ge (l : List Vec2) (index : ℤ)
    (h : 3 ≤ l.length) : 3 ≤ (deleteVertex l index).length := by
  rcases Nat.lt_or_ge 3 l.length with h3 | h3
  · by_cases hin : 0 ≤ index ∧ index < (l.length : ℤ)
    · have hk : (index.toNat : ℤ) = index := Int.toNat_of_nonneg hin.1
      rw [deleteVertex_eq_eraseIdx l index index.toNat h3 hk (by omega)]
      rw [List.length_eraseIdx_of_lt (by omega)]
      omega
    · rw [deleteVertex, if_neg (by omega),
        filterIdxFrom_ne_out 0 l index (by omega)]
      exact h
  · rw [deleteVertex_noop_of_le_three l index (by omega)]
    exact h

theorem deleteVertex_foldl_length_ge (ds : List ℤ) :
    ∀ l : List Vec2, 3 ≤ l.length → 3 ≤ (ds.foldl deleteVertex l).length := by
  induction ds with
  | nil => intro l h; exact h
  | cons d ds ih =>
    intro l h
    rw [List.foldl_cons]
    exact ih (deleteVertex l d) (deleteVertex_length_ge l d h)

/-- C1: the minimum-vertex invariant of `deleteVertex`.  A delete on a
polygon of length 3 is a silent no-op; a delete on a longer polygon with
an in-range index removes exactly the vertex at that index; and for any
sequence of delete calls the length never drops below 3. -/
theorem deleteVertex_min_three (l : List Vec2) (h3 : 3 ≤ l.length) :
    (∀ index : ℤ, 3 ≤ (deleteVertex l index).length) ∧
    (∀ index : ℤ, l.length = 3 → deleteVertex l index = l) ∧
    (∀ (index : ℤ) (k : ℕ), 3 < l.length → (k : ℤ) = index → k < l.length →
      deleteVertex l index = l.eraseIdx k) ∧
    (∀ ds : List ℤ, 3 ≤ (ds.foldl deleteVertex l).length) :=
  ⟨fun index => deleteVertex_length_ge l index h3,
   fun index hlen => deleteVertex_noop_of_le_three l index (by omega),
   fun index k hlt hk hklen => deleteVertex_eq_eraseIdx l index k hlt hk hklen,
   fun ds => deleteVertex_foldl_length_ge ds l h3⟩

/-- C1 witness: starting from the default 4-vertex square, any four
consecutive deletes of index 0 leave at least 3 vertices. -/
theorem deleteVertex_min_three_witness :
    3 ≤ (([0, 0, 0, 0] : List ℤ).foldl deleteVertex defaultVertices).length :=
  (deleteVertex_min_three defaultVertices (by simp [defaultVertices])).2.2.2
    [0, 0, 0, 0]

/-! ### `insertVertex` splice semantics -/

theorem length_insertVertex (l : List Vec2) (index : ℤ) (v : Vec2) :
    (insertVertex l index v).length = l.length + 1 := by
  simp only [insertVertex]
  have h1 : (if index < 0 then max ((l.length : ℤ) + index) 0
      else min index (l.length : ℤ)).toNat ≤ l.length := by
    rcases lt_or_le index 0 with h | h
    · rw [if_pos h]; omega
    · rw [if_neg (by omega)]; omega
  exact List.length_insertIdx _ l h1

theorem insertVertex_in_range (l : List Vec2) (k : ℕ) (v : Vec2)
    (hk : k ≤ l.length) : insertVertex l (k : ℤ) v = l.insertIdx k v := by
  simp only [insertVertex]
  rw [if_neg (by omega)]
  congr 1
  omega

theorem insertVertex_big_appends (l : List Vec2) (index : ℤ) (v : Vec2)
    (h : (l.length : ℤ) ≤ index) : insertVertex l index v = l ++ [v] := by
  simp only [insertVertex]
  rw [if_neg (by omega)]
  have : (min index (l.length : ℤ)).toNat = l.length := by omega
  rw [this, List.insertIdx_length_self]

theorem insertVertex_small_prepends (l : List Vec2) (index : ℤ) (v : Vec2)
    (h : index ≤ -(l.length : ℤ)) : insertVertex l index v = v :: l := by
  simp only [insertVertex]
  rcases lt_or_le index 0 with h0 | h0
  · rw [if_pos h0]
    have : (max ((l.length : ℤ) + index) 0).toNat = 0 := by omega
    rw [this, List.insertIdx_zero]
  · have hlen : l.length = 0 := by omega
    rw [if_neg (by omega)]
    have : (min index (l.length : ℤ)).toNat = 0 := by omega
    rw [this, List.insertIdx_zero]

/-- C6 counterexample: the claim says an insert at an out-of-range index
is a no-op, but `insertVertex` on the 4-vertex default square at index 5
changes the polygon (it appends the new vertex). -/
theorem insertVertex_out_of_range_not_noop :
    insertVertex defaultVertices 5 ⟨0, 0⟩ ≠ defaultVertices := by
  intro h
  have hlen := congrArg List.length h
  rw [length_insertVertex] at hlen
  simp [defaultVertices] at hlen

/-- C6 amended: `updateVertex` with an out-of-range index is a no-op,
but `insertVertex` never is: `splice` clamps the start index into
`[0, length]` (negative indices count back from the end, floored at 0;
indices at or above the length are clamped to the length) and always
inserts, growing the polygon by one — appending when the index is at or
above the length, prepending when it is at or below minus the length. -/
theorem mutation_out_of_range (l : List Vec2) (index : ℤ) (v : Vec2)
    (h : index < 0 ∨ (l.length : ℤ) ≤ index) :
    updateVertex l index v = l ∧
    (insertVertex l index v).length = l.length + 1 ∧
    ((l.length : ℤ) ≤ index → insertVertex l index v = l ++ [v]) ∧
    (index ≤ -(l.length : ℤ) → insertVertex l index v = v :: l) :=
  ⟨updateVertex_out_of_range l index v h,
   length_insertVertex l index v,
   fun hbig => insertVertex_big_appends l index v hbig,
   fun hsmall => insertVertex_small_prepends l index v hsmall⟩

/-- C6 witness: index 5 is out of range for the 4-vertex default square;
the move is a no-op there and the insert appends. -/
theorem mutation_out_of_range_witness :
    updateVertex defaultVertices 5 ⟨0, 0⟩ = defaultVertices ∧
    (insertVertex defaultVertices 5 ⟨0, 0⟩).length = defaultVertices.length + 1 ∧
    ((defaultVertices.length : ℤ) ≤ 5 →
      insertVertex defaultVertices 5 ⟨0, 0⟩ = defaultVertices ++ [⟨0, 0⟩]) ∧
    ((5 : ℤ) ≤ -(defaultVertices.length : ℤ) →
      insertVertex defaultVertices 5 ⟨0, 0⟩ = ⟨0, 0⟩ :: defaultVertices) :=
  mutation_out_of_range defaultVertices 5 ⟨0, 0⟩
    (Or.inr (by norm_num [defaultVertices]))

/-! ### Segment distance / projection safety -/

theorem sum_sq_eq_zero {u w : ℚ} (h : u * u + w * w = 0) : u = 0 ∧ w = 0 := by
  have hu := mul_self_nonneg u
  have hw := mul_self_nonneg w
  have hu0 : u * u = 0 := by linarith
  have hw0 : w * w = 0 := by linarith
  exact ⟨mul_self_eq_zero.mp hu0, mul_self_eq_zero.mp hw0⟩

/-- C9: the segment-distance and segment-projection math is safe on
degenerate (zero-length) segments.  The squared edge length `c2` is
nonnegative; when it is zero the `c1 <= 0` branch fires first, so the
distance falls back to the first endpoint and the division branch is
unreachable; the projection of a point onto a degenerate segment returns
the segment's (single) endpoint; and the projection's floored
denominator `ab2 = |ab|² || 1` is always strictly positive. -/
theorem segment_math_safe (px py x1 y1 x2 y2 : ℚ) (p a b : Vec2) :
    0 ≤ segC2 x1 y1 x2 y2 ∧
    (segC2 x1 y1 x2 y2 = 0 →
      segC1 px py x1 y1 x2 y2 ≤ 0 ∧
      pointToSegmentDistanceSq px py x1 y1 x2 y2 =
        (px - x1) * (px - x1) + (py - y1) * (py - y1)) ∧
    projectPointOnSegment p a a = a ∧
    0 < projDenom a b := by
  refine ⟨?_, ?_, ?_, ?_⟩
  · unfold segC2
    have h1 := mul_self_nonneg (x2 - x1)
    have h2 := mul_self_nonneg (y2 - y1)
    linarith
  · intro h
    obtain ⟨hx, hy⟩ := sum_sq_eq_zero (h := h)
    have hc1 : segC1 px py x1 y1 x2 y2 = 0 := by
      unfold segC1
      rw [hx, hy]
      ring
    exact ⟨le_of_eq hc1, by rw [pointToSegmentDistanceSq, if_pos (le_of_eq hc1)]⟩
  · simp only [projectPointOnSegment, projDenom]
    have hz : (a.x - a.x) * (a.x - a.x) + (a.y - a.y) * (a.y - a.y) = 0 := by ring
    rw [if_pos hz]
    cases a with
    | mk ax ay =>
      simp only [Vec2.mk.injEq]
      constructor <;> ring_nf
  · unfold projDenom
    split
    · norm_num
    · rename_i h
      have h2 : 0 ≤ (b.x - a.x) * (b.x - a.x) + (b.y - a.y) * (b.y - a.y) := by
        have h3 := mul_self_nonneg (b.x - a.x)
        have h4 := mul_self_nonneg (b.y - a.y)
        linarith
      exact lt_of_le_of_ne h2 (Ne.symm h)

/-- C9 witness: a degenerate segment with both endpoints (1, 1) (and the
projection segment with both endpoints (1, 2)): the distance falls back
to the endpoint distance and the projection returns the endpoint. -/
theorem segment_math_safe_witness :
    0 ≤ segC2 1 1 1 1 ∧
    segC1 3 4 1 1 1 1 ≤ 0 ∧
    pointToSegmentDistanceSq 3 4 1 1 1 1 = (3 - 1) * (3 - 1) + (4 - 1) * (4 - 1) ∧
    projectPointOnSegment ⟨3, 4⟩ ⟨1, 2⟩ ⟨1, 2⟩ = ⟨1, 2⟩ ∧
    0 < projDenom ⟨1, 2⟩ ⟨1, 2⟩ :=
  have h := segment_math_safe 3 4 1 1 1 1 ⟨3, 4⟩ ⟨1, 2⟩ ⟨1, 2⟩
  have hz : segC2 1 1 1 1 = 0 := by norm_num [segC2]
  ⟨h.1, (h.2.1 hz).1, (h.2.1 hz).2, h.2.2.1, h.2.2.2⟩

/-! ### Armed-insert on an edge -/

theorem projectPointOnSegment_between (p a b : Vec2) :
    ∃ t : ℚ, 0 ≤ t ∧ t ≤ 1 ∧
      projectPointOnSegment p a b
        = ⟨a.x + (b.x - a.x) * t, a.y + (b.y - a.y) * t⟩ := by
  refine ⟨max 0 (min 1 (((p.x - a.x) * (b.x - a.x) + (p.y - a.y) * (b.y - a.y))
    / projDenom a b)), le_max_left _ _, ?_, rfl⟩
  exact max_le (by norm_num) (min_le_left _ _)

theorem projectPointOnSegment_midpoint (a b : Vec2) :
    projectPointOnSegment ⟨(a.x + b.x) / 2, (a.y + b.y) / 2⟩ a b
      = ⟨(a.x + b.x) / 2, (a.y + b.y) / 2⟩ := by
  simp only [projectPointOnSegment, projDenom]
  by_cases h : (b.x - a.x) * (b.x - a.x) + (b.y - a.y) * (b.y - a.y) = 0
  · obtain ⟨hx, hy⟩ := sum_sq_eq_zero (h := h)
    have hbx : b.x = a.x := by linarith
    have hby : b.y = a.y := by linarith
    rw [if_pos h]
    simp only [Vec2.mk.injEq]
    rw [hbx, hby]
    constructor <;> ring_nf
  · rw [if_neg h]
    have ht : ((a.x + b.x) / 2 - a.x) * (b.x - a.x) + ((a.y + b.y) / 2 - a.y) * (b.y - a.y)
        = ((b.x - a.x) * (b.x - a.x) + (b.y - a.y) * (b.y - a.y)) / 2 := by ring
    rw [ht]
    have h2 : ((b.x - a.x) * (b.x - a.x) + (b.y - a.y) * (b.y - a.y)) / 2
        / ((b.x - a.x) * (b.x - a.x) + (b.y - a.y) * (b.y - a.y)) = 1 / 2 := by
      field_simp
      ring
    rw [h2]
    have h3 : max 0 (min 1 ((1 : ℚ) / 2)) = 1 / 2 := by norm_num
    rw [h3]
    simp only [Vec2.mk.injEq]
    constructor <;> ring

/-- C4: with add mode armed and edge `(i, (i+1) mod n)` hit, pointer-down
inserts the cursor's clamped perpendicular projection onto that edge at
index `(i+1) mod n`: the polygon grows by one, position `(i+1) mod n`
holds the projection, the projection lies on the segment between the
edge's two original endpoints, and a cursor at the edge midpoint inserts
exactly the midpoint. -/
theorem armedInsert_spec (pxPerM cx cy px py : ℚ) (l : List Vec2) (i : ℕ)
    (hn : 3 ≤ l.length) (hi : i < l.length) :
    (armedInsertPointerDown pxPerM l i cx cy px py).length = l.length + 1 ∧
    (armedInsertPointerDown pxPerM l i cx cy px py).getD ((i + 1) % l.length) ⟨0, 0⟩
      = projectPointOnSegment (canvasToWorld pxPerM px py cx cy)
          (l.getD i ⟨0, 0⟩) (l.getD ((i + 1) % l.length) ⟨0, 0⟩) ∧
    (∃ t : ℚ, 0 ≤ t ∧ t ≤ 1 ∧
      projectPointOnSegment (canvasToWorld pxPerM px py cx cy)
          (l.getD i ⟨0, 0⟩) (l.getD ((i + 1) % l.length) ⟨0, 0⟩)
        = ⟨(l.getD i ⟨0, 0⟩).x
              + ((l.getD ((i + 1) % l.length) ⟨0, 0⟩).x - (l.getD i ⟨0, 0⟩).x) * t,
           (l.getD i ⟨0, 0⟩).y
              + ((l.getD ((i + 1) % l.length) ⟨0, 0⟩).y - (l.getD i ⟨0, 0⟩).y) * t⟩) ∧
    (canvasToWorld pxPerM px py cx cy
        = ⟨((l.getD i ⟨0, 0⟩).x + (l.getD ((i + 1) % l.length) ⟨0, 0⟩).x) / 2,
           ((l.getD i ⟨0, 0⟩).y + (l.getD ((i + 1) % l.length) ⟨0, 0⟩).y) / 2⟩ →
      (armedInsertPointerDown pxPerM l i cx cy px py).getD ((i + 1) % l.length) ⟨0, 0⟩
        = ⟨((l.getD i ⟨0, 0⟩).x + (l.getD ((i + 1) % l.length) ⟨0, 0⟩).x) / 2,
           ((l.getD i ⟨0, 0⟩).y + (l.getD ((i + 1) % l.length) ⟨0, 0⟩).y) / 2⟩) := by
  have hj : (i + 1) % l.length < l.length := Nat.mod_lt _ (by omega)
  have hins : armedInsertPointerDown pxPerM l i cx cy px py
      = l.insertIdx ((i + 1) % l.length)
          (projectPointOnSegment (canvasToWorld pxPerM px py cx cy)
            (l.getD i ⟨0, 0⟩) (l.getD ((i + 1) % l.length) ⟨0, 0⟩)) := by
    simp only [armedInsertPointerDown]
    exact insertVertex_in_range l _ _ (le_of_lt hj)
  have hlen : (armedInsertPointerDown pxPerM l i cx cy px py).length = l.length + 1 := by
    rw [hins, List.length_insertIdx _ _ (le_of_lt hj)]
  have hget : (armedInsertPointerDown pxPerM l i cx cy px py).getD
      ((i + 1) % l.length) ⟨0, 0⟩
      = projectPointOnSegment (canvasToWorld pxPerM px py cx cy)
          (l.getD i ⟨0, 0⟩) (l.getD ((i + 1) % l.length) ⟨0, 0⟩) := by
    have hb : (i + 1) % l.length < (armedInsertPointerDown pxPerM l i cx cy px py).length := by
      omega
    rw [List.getD_eq_getElem _ _ hb]
    have hb2 : (i + 1) % l.length <
        (l.insertIdx ((i + 1) % l.length)
          (projectPointOnSegment (canvasToWorld pxPerM px py cx cy)
            (l.getD i ⟨0, 0⟩) (l.getD ((i + 1) % l.length) ⟨0, 0⟩))).length := by
      rw [← hins]; exact hb
    simp only [hins]
    exact List.getElem_insertIdx_self l _ _ (le_of_lt hj)
  refine ⟨hlen, hget, projectPointOnSegment_between _ _ _, ?_⟩
  intro hmid
  rw [hget, hmid, projectPointOnSegment_midpoint]

/-- C4 witness: on the default square, armed-insert on edge 0 with the
cursor at the screen image of the edge midpoint (0, -1.5) (scale 100,
centre (0, 0), so pixel (0, 150)) yields a 5-vertex polygon whose new
vertex at index 1 is exactly (0, -1.5). -/
theorem armedInsert_spec_witness :
    (armedInsertPointerDown 100 defaultVertices 0 0 0 0 150).length
      = defaultVertices.length + 1 ∧
    (armedInsertPointerDown 100 defaultVertices 0 0 0 0 150).getD
      ((0 + 1) % defaultVertices.length) ⟨0, 0⟩ = ⟨0, -3/2⟩ := by
  have h := armedInsert_spec 100 0 0 0 150 defaultVertices 0
    (by simp [defaultVertices]) (by simp [defaultVertices])
  refine ⟨h.1, ?_⟩
  have hm := h.2.2.2 (by norm_num [canvasToWorld, defaultVertices])
  rw [hm]
  norm_num [defaultVertices]

/-- C10: `updateVertex` preserves length, leaves every position other
than the given index unchanged, and replaces the vertex at the given
index (when in range) by `v`. -/
theorem updateVertex_frame (l : List Vec2) (index : ℤ) (v d : Vec2) :
    (updateVertex l index v).length = l.length ∧
    (∀ k : ℕ, k < l.length → (k : ℤ) ≠ index →
      (updateVertex l index v).getD k d = l.getD k d) ∧
    (∀ k : ℕ, k < l.length → (k : ℤ) = index →
      (updateVertex l index v).getD k d = v) := by
  refine ⟨length_updateVertex l index v, ?_, ?_⟩
  · intro k hk hne
    rw [getD_updateVertex, if_pos hk, if_neg hne]
  · intro k hk heq
    rw [getD_updateVertex, if_pos hk, if_pos heq]

/-- C10 witness: moving vertex 2 of the default square to (5, 5) keeps
the length, keeps vertex 0, and writes (5, 5) at index 2. -/
theorem updateVertex_frame_witness :
    (updateVertex defaultVertices 2 ⟨5, 5⟩).length = defaultVertices.length ∧
    (updateVertex defaultVertices 2 ⟨5, 5⟩).getD 0 ⟨0, 0⟩ = defaultVertices.getD 0 ⟨0, 0⟩ ∧
    (updateVertex defaultVertices 2 ⟨5, 5⟩).getD 2 ⟨0, 0⟩ = ⟨5, 5⟩ :=
  ⟨(updateVertex_frame defaultVertices 2 ⟨5, 5⟩ ⟨0, 0⟩).1,
   (updateVertex_frame defaultVertices 2 ⟨5, 5⟩ ⟨0, 0⟩).2.1 0 (by simp [defaultVertices])
     (by decide),
   (updateVertex_frame defaultVertices 2 ⟨5, 5⟩ ⟨0, 0⟩).2.2 2 (by simp [defaultVertices])
     (by decide)⟩

/-- C2: world→screen→world round-trip is the identity (for nonzero scale),
and the Y axis is negated between the two spaces. -/
theorem canvasToWorld_worldToCanvas (pxPerM : ℚ) (v : Vec2) (cx cy : ℚ)
    (h : pxPerM ≠ 0) :
    canvasToWorld pxPerM (worldToCanvas pxPerM v cx cy).1
      (worldToCanvas pxPerM v cx cy).2 cx cy = v ∧
    (worldToCanvas pxPerM v cx cy).2 = cy - v.y * pxPerM := by
  constructor
  · simp only [worldToCanvas, canvasToWorld]
    have hx : (cx + v.x * pxPerM - cx) / pxPerM = v.x := by
      field_simp
    have hy : (cy - (cy - v.y * pxPerM)) / pxPerM = v.y := by
      field_simp
    cases v
    simp_all
  · rfl

/-- C2 witness: the round trip at scale 100, centre (400, 300), on the
default square's first vertex (-2, -1.5). -/
theorem canvasToWorld_worldToCanvas_witness :
    (100 : ℚ) ≠ 0 ∧
    (canvasToWorld 100 (worldToCanvas 100 ⟨-2, -3/2⟩ 400 300).1
      (worldToCanvas 100 ⟨-2, -3/2⟩ 400 300).2 400 300 = ⟨-2, -3/2⟩ ∧
    (worldToCanvas 100 ⟨-2, -3/2⟩ 400 300).2 = 300 - (-3/2) * 100) :=
  ⟨by norm_num, canvasToWorld_worldToCanvas 100 ⟨-2, -3/2⟩ 400 300 (by norm_num)⟩

/-- C3: the wheel handler clamps the new scale to
`[MIN_PX_PER_M, MAX_PX_PER_M] = [20, 400]`, and the world point that was
under the cursor before the zoom maps to the same screen pixel after it
(the anchor invariant), including when the scale clamps at a boundary. -/
theorem onWheel_clamps_and_anchors (pxPerM : ℚ) (offset : Vec2)
    (halfW halfH px py factor : ℚ) :
    MIN_PX_PER_M ≤ (onWheel pxPerM offset halfW halfH px py factor).1 ∧
    (onWheel pxPerM offset halfW halfH px py factor).1 ≤ MAX_PX_PER_M ∧
    worldToCanvas (onWheel pxPerM offset halfW halfH px py factor).1
      (canvasToWorld pxPerM px py (halfW + offset.x) (halfH + offset.y))
      (halfW + (onWheel pxPerM offset halfW halfH px py factor).2.x)
      (halfH + (onWheel pxPerM offset halfW halfH px py factor).2.y)
      = (px, py) := by
  refine ⟨?_, ?_, ?_⟩
  · simp only [onWheel, MIN_PX_PER_M, MAX_PX_PER_M, le_min_iff]
    exact ⟨by norm_num, le_max_left _ _⟩
  · simp only [onWheel]
    exact min_le_left _ _
  · simp only [onWheel, worldToCanvas, Prod.mk.injEq]
    constructor <;> ring

/-! ### Edge drag: perpendicular-only movement -/

/-- C8: the edge-drag delta without Ctrl is the raw pointer delta
projected onto the edge's unit normal; the applied delta is orthogonal
to the edge's own direction, and it is added identically to both
endpoints of the dragged edge. -/
theorem edgeDrag_perpendicular (l : List Vec2) (i : ℕ) (dx dy len ex ey : ℚ)
    (hn : 3 ≤ l.length) (hi : i < l.length)
    (hex : ex = (l.getD ((i + 1) % l.length) ⟨0, 0⟩).x - (l.getD i ⟨0, 0⟩).x)
    (hey : ey = (l.getD ((i + 1) % l.length) ⟨0, 0⟩).y - (l.getD i ⟨0, 0⟩).y)
    (hlen : (len * len = ex * ex + ey * ey ∧ 0 < len) ∨ (ex = 0 ∧ ey = 0 ∧ len = 1)) :
    (edgeDragDelta ex ey dx dy len).1 * ex + (edgeDragDelta ex ey dx dy len).2 * ey = 0 ∧
    (edgeDragMove l i dx dy len).getD i ⟨0, 0⟩
      = Vec2.add (l.getD i ⟨0, 0⟩)
          ⟨(edgeDragDelta ex ey dx dy len).1, (edgeDragDelta ex ey dx dy len).2⟩ ∧
    (edgeDragMove l i dx dy len).getD ((i + 1) % l.length) ⟨0, 0⟩
      = Vec2.add (l.getD ((i + 1) % l.length) ⟨0, 0⟩)
          ⟨(edgeDragDelta ex ey dx dy len).1, (edgeDragDelta ex ey dx dy len).2⟩ := by
  subst hex
  subst hey
  have hj : (i + 1) % l.length < l.length := Nat.mod_lt _ (by omega)
  have hij : (i + 1) % l.length ≠ i := by
    rcases Nat.lt_or_ge (i + 1) l.length with h | h
    · rw [Nat.mod_eq_of_lt h]; omega
    · have heq : i + 1 = l.length := by omega
      rw [heq, Nat.mod_self]; omega
  refine ⟨?_, ?_, ?_⟩
  · simp only [edgeDragDelta]
    ring
  · simp only [edgeDragMove, Vec2.add]
    rw [getD_updateVertex]
    rw [if_pos (by rw [length_updateVertex]; exact hi), if_neg (by exact_mod_cast hij.symm)]
    rw [getD_updateVertex, if_pos hi, if_pos rfl]
  · simp only [edgeDragMove, Vec2.add]
    rw [getD_updateVertex]
    rw [if_pos (by rw [length_updateVertex]; exact hj), if_pos rfl]

/-- C8 witness: dragging edge 0 of the default square (direction (4, 0),
length 4) by raw delta (1, 2) applies the perpendicular component only. -/
theorem edgeDrag_perpendicular_witness :
    (edgeDragDelta 4 0 1 2 4).1 * 4 + (edgeDragDelta 4 0 1 2 4).2 * 0 = 0 ∧
    (edgeDragMove defaultVertices 0 1 2 4).getD 0 ⟨0, 0⟩
      = Vec2.add (defaultVertices.getD 0 ⟨0, 0⟩)
          ⟨(edgeDragDelta 4 0 1 2 4).1, (edgeDragDelta 4 0 1 2 4).2⟩ ∧
    (edgeDragMove defaultVertices 0 1 2 4).getD ((0 + 1) % defaultVertices.length) ⟨0, 0⟩
      = Vec2.add (defaultVertices.getD ((0 + 1) % defaultVertices.length) ⟨0, 0⟩)
          ⟨(edgeDragDelta 4 0 1 2 4).1, (edgeDragDelta 4 0 1 2 4).2⟩ :=
  edgeDrag_perpendicular defaultVertices 0 1 2 4 4 0
    (by simp [defaultVertices]) (by simp [defaultVertices])
    (by norm_num [defaultVertices]) (by norm_num [defaultVertices])
    (Or.inl (by norm_num))
/-! ### Nearest-vertex query -/

theorem nearestFold_spec (pm cx cy px py : ℚ) :
    ∀ (l : List Vec2) (s : ℕ) (b : ℤ) (D : ℚ),
      ((l.enumFrom s).foldl (nearestStep pm cx cy px py) (b, D) = (b, D) ∧
        ∀ k (hk : k < l.length), ¬ nearestD2 pm cx cy px py l[k] ≤ D)
      ∨ (∃ k, ∃ hk : k < l.length,
          (l.enumFrom s).foldl (nearestStep pm cx cy px py) (b, D)
            = ((s + k : ℤ), nearestD2 pm cx cy px py l[k]) ∧
          nearestD2 pm cx cy px py l[k] ≤ D ∧
          (∀ m (hm : m < l.length),
            nearestD2 pm cx cy px py l[k] ≤ nearestD2 pm cx cy px py l[m]) ∧
          (∀ m (hm : m < l.length), k < m →
            ¬ nearestD2 pm cx cy px py l[m] ≤ nearestD2 pm cx cy px py l[k])) := by
  intro l
  induction l with
  | nil =>
    intro s b D
    left
    exact ⟨rfl, fun k hk => absurd hk (by simp)⟩
  | cons a as ih =>
    intro s b D
    rw [List.enumFrom_cons, List.foldl_cons]
    by_cases h : nearestD2 pm cx cy px py a ≤ D
    · have hstep : nearestStep pm cx cy px py (b, D) (s, a)
          = ((s : ℤ), nearestD2 pm cx cy px py a) := by
        simp [nearestStep, h]
      rw [hstep]
      rcases ih (s + 1) (s : ℤ) (nearestD2 pm cx cy px py a) with
        ⟨hfold, hnone⟩ | ⟨k, hk, hfold, hle, hmin, hstrict⟩
      · right
        refine ⟨0, by simp, ?_, by simpa using h, ?_, ?_⟩
        · rw [hfold]
          simp
        · intro m hm
          cases m with
          | zero => simp
          | succ m =>
            have hm2 : m < as.length := by simpa using hm
            have := hnone m hm2
            simp only [List.getElem_cons_succ, List.getElem_cons_zero]
            linarith [not_le.mp this]
        · intro m hm hlt
          cases m with
          | zero => omega
          | succ m =>
            have hm2 : m < as.length := by simpa using hm
            simpa using hnone m hm2
      · right
        have hk' : k + 1 < (a :: as).length := by simpa using Nat.succ_lt_succ hk
        refine ⟨k + 1, hk', ?_, ?_, ?_, ?_⟩
        · rw [hfold]
          simp only [List.getElem_cons_succ]
          congr 1
          omega
        · simpa using le_trans hle h
        · intro m hm
          cases m with
          | zero => simpa using hle
          | succ m =>
            have hm2 : m < as.length := by simpa using hm
            simpa using hmin m hm2
        · intro m hm hlt
          cases m with
          | zero => omega
          | succ m =>
            have hm2 : m < as.length := by simpa using hm
            simpa using hstrict m hm2 (by omega)
    · have hstep : nearestStep pm cx cy px py (b, D) (s, a) = (b, D) := by
        simp [nearestStep, h]
      rw [hstep]
      rcases ih (s + 1) b D with ⟨hfold, hnone⟩ | ⟨k, hk, hfold, hle, hmin, hstrict⟩
      · left
        refine ⟨hfold, ?_⟩
        intro m hm
        cases m with
        | zero => simpa using h
        | succ m =>
          have hm2 : m < as.length := by simpa using hm
          simpa using hnone m hm2
      · right
        have hk' : k + 1 < (a :: as).length := by simpa using Nat.succ_lt_succ hk
        refine ⟨k + 1, hk', ?_, ?_, ?_, ?_⟩
        · rw [hfold]
          simp only [List.getElem_cons_succ]
          congr 1
          omega
        · simpa using hle
        · intro m hm
          cases m with
          | zero =>
            simp only [List.getElem_cons_succ, List.getElem_cons_zero]
            have := not_le.mp h
            have h2 : nearestD2 pm cx cy px py as[k] ≤ D := by simpa using hle
            linarith
          | succ m =>
            have hm2 : m < as.length := by simpa using hm
            simpa using hmin m hm2
        · intro m hm hlt
          cases m with
          | zero => omega
          | succ m =>
            have hm2 : m < as.length := by simpa using hm
            simpa using hstrict m hm2 (by omega)

theorem getNearestIndex_tie_eval :
    getNearestIndex 100 [⟨0, 0⟩, ⟨1/10, 0⟩] 0 0 5 0 = some 1 := by
  norm_num [getNearestIndex, nearestStep, nearestD2, worldToCanvas, POINT_R_PX,
    List.enum_eq_enumFrom, List.enumFrom]

/-- C5 amended: `getNearestIndex` returns the index of a vertex whose
squared screen distance to the query point is minimal among all vertices
and within `(POINT_R_PX + 6)²`, or `none` when no vertex is within the
threshold; among several vertices at exactly the minimal distance the
HIGHEST index is returned (the `<=` comparison lets later vertices
overwrite earlier equal ones). -/
theorem getNearestIndex_spec (pm cx cy px py : ℚ) (l : List Vec2) :
    (getNearestIndex pm l cx cy px py = none →
      ∀ k (hk : k < l.length),
        ¬ nearestD2 pm cx cy px py l[k] ≤ (POINT_R_PX + 6) * (POINT_R_PX + 6)) ∧
    (∀ i, getNearestIndex pm l cx cy px py = some i →
      ∃ hi : i < l.length,
        nearestD2 pm cx cy px py l[i] ≤ (POINT_R_PX + 6) * (POINT_R_PX + 6) ∧
        (∀ m (hm : m < l.length),
          nearestD2 pm cx cy px py l[i] ≤ nearestD2 pm cx cy px py l[m]) ∧
        (∀ m (hm : m < l.length), i < m →
          nearestD2 pm cx cy px py l[i] < nearestD2 pm cx cy px py l[m])) := by
  rcases nearestFold_spec pm cx cy px py l 0 (-1)
      ((POINT_R_PX + 6) * (POINT_R_PX + 6)) with
    ⟨hfold, hnone⟩ | ⟨k, hk, hfold, hle, hmin, hstrict⟩
  · have hres : getNearestIndex pm l cx cy px py = none := by
      simp only [getNearestIndex, List.enum_eq_enumFrom]
      rw [hfold]
      norm_num
    constructor
    · intro _ k hk
      exact hnone k hk
    · intro i hi
      rw [hres] at hi
      exact absurd hi (by simp)
  · have hres : getNearestIndex pm l cx cy px py = some k := by
      simp only [getNearestIndex, List.enum_eq_enumFrom]
      rw [hfold]
      simp
    constructor
    · intro habs
      rw [hres] at habs
      exact absurd habs (by simp)
    · intro i hi
      rw [hres] at hi
      have hki : k = i := Option.some.inj hi
      subst hki
      exact ⟨hk, hle, hmin, fun m hm hlt => not_le.mp (hstrict m hm hlt)⟩

/-- C5 counterexample: vertices 0 and 1 are at exactly equal minimal
screen distance (5 px each side of the query point); the claim says
index 0 is returned, but `getNearestIndex` returns index 1. -/
theorem getNearestIndex_tie_not_lowest :
    getNearestIndex 100 [⟨0, 0⟩, ⟨1/10, 0⟩] 0 0 5 0 = some 1 ∧
    nearestD2 100 0 0 5 0 ⟨0, 0⟩ = nearestD2 100 0 0 5 0 ⟨1/10, 0⟩ ∧
    getNearestIndex 100 [⟨0, 0⟩, ⟨1/10, 0⟩] 0 0 5 0 ≠ some 0 := by
  refine ⟨getNearestIndex_tie_eval, ?_, ?_⟩
  · norm_num [nearestD2, worldToCanvas]
  · rw [getNearestIndex_tie_eval]
    simp

/-- C5 witness: on the two-vertex tie the returned index 1 is within
threshold, minimal, and strictly below every later vertex's distance. -/
theorem getNearestIndex_spec_witness :
    ∃ hi : 1 < ([⟨0, 0⟩, ⟨1/10, 0⟩] : List Vec2).length,
      nearestD2 100 0 0 5 0 ([⟨0, 0⟩, ⟨1/10, 0⟩] : List Vec2)[1]
          ≤ (POINT_R_PX + 6) * (POINT_R_PX + 6) ∧
      (∀ m (hm : m < ([⟨0, 0⟩, ⟨1/10, 0⟩] : List Vec2).length),
        nearestD2 100 0 0 5 0 ([⟨0, 0⟩, ⟨1/10, 0⟩] : List Vec2)[1]
          ≤ nearestD2 100 0 0 5 0 ([⟨0, 0⟩, ⟨1/10, 0⟩] : List Vec2)[m]) ∧
      (∀ m (hm : m < ([⟨0, 0⟩, ⟨1/10, 0⟩] : List Vec2).length), 1 < m →
        nearestD2 100 0 0 5 0 ([⟨0, 0⟩, ⟨1/10, 0⟩] : List Vec2)[1]
          < nearestD2 100 0 0 5 0 ([⟨0, 0⟩, ⟨1/10, 0⟩] : List Vec2)[m]) :=
  (getNearestIndex_spec 100 0 0 5 0 [⟨0, 0⟩, ⟨1/10, 0⟩]).2 1 getNearestIndex_tie_eval

/-! ### Merge-on-drag-release -/

theorem mergeFold_mem (pm cx cy tx ty : ℚ) (A : ℕ) :
    ∀ (l : List Vec2) (s : ℕ) (acc : Option ℕ × ℚ),
      ((l.enumFrom s).foldl (mergeStep pm cx cy tx ty A) acc).1 = acc.1
      ∨ ∃ c, ((l.enumFrom s).foldl (mergeStep pm cx cy tx ty A) acc).1 = some c ∧
          s ≤ c ∧ c < s + l.length ∧ c ≠ A := by
  intro l
  induction l with
  | nil =>
    intro s acc
    left
    rfl
  | cons a as ih =>
    intro s acc
    rw [List.enumFrom_cons, List.foldl_cons]
    have hlen : (a :: as).length = as.length + 1 := rfl
    by_cases hA : s = A
    · have hstep : mergeStep pm cx cy tx ty A acc (s, a) = acc := by
        simp [mergeStep, hA]
      rw [hstep]
      rcases ih (s + 1) acc with h | ⟨c, hc, hsc, hclen, hcA⟩
      · left; exact h
      · right; exact ⟨c, hc, by omega, by omega, hcA⟩
    · by_cases hd : nearestD2 pm cx cy tx ty a ≤ acc.2
      · have hstep : mergeStep pm cx cy tx ty A acc (s, a)
            = (some s, nearestD2 pm cx cy tx ty a) := by
          simp [mergeStep, hA, hd]
        rw [hstep]
        rcases ih (s + 1) (some s, nearestD2 pm cx cy tx ty a) with h | ⟨c, hc, hsc, hclen, hcA⟩
        · right
          exact ⟨s, h, le_refl s, by omega, hA⟩
        · right
          exact ⟨c, hc, by omega, by omega, hcA⟩
      · have hstep : mergeStep pm cx cy tx ty A acc (s, a) = acc := by
          simp [mergeStep, hA, hd]
        rw [hstep]
        rcases ih (s + 1) acc with h | ⟨c, hc, hsc, hclen, hcA⟩
        · left; exact h
        · right; exact ⟨c, hc, by omega, by omega, hcA⟩

theorem findMergeCandidate_some (pm cx cy tx ty : ℚ) (l : List Vec2) (A B : ℕ)
    (h : findMergeCandidate pm l A cx cy tx ty = some B) :
    B < l.length ∧ B ≠ A := by
  have hm := mergeFold_mem pm cx cy tx ty A l 0
    (none, MERGE_SNAP_PX * MERGE_SNAP_PX)
  rw [findMergeCandidate, List.enum_eq_enumFrom] at h
  rcases hm with hnone | ⟨c, hc, _, hclen, hcA⟩
  · rw [h] at hnone
    exact absurd hnone (by simp)
  · rw [h] at hc
    have : B = c := Option.some.inj hc
    subst this
    exact ⟨by omega, hcA⟩

/-- C7 amended: on a polygon with MORE THAN 3 vertices, ending a vertex
drag of index `A` with a pending merge candidate `B` and releasing
deletes the dragged index: the result has exactly one fewer vertex, the
dragged slot had been snapped onto `B`'s original position, and `B`'s
original position survives (at index `B` when `B < A`, else at `B - 1`).
On a 3-vertex polygon the delete is a silent no-op and the vertex count
is unchanged. -/
theorem dragRelease_merge_spec (pm cx cy : ℚ) (l : List Vec2) (A B : ℕ)
    (target : Vec2) (h4 : 3 < l.length) (hA : A < l.length)
    (hB : findMergeCandidate pm l A cx cy (worldToCanvas pm target cx cy).1
        (worldToCanvas pm target cx cy).2 = some B) :
    (dragReleaseWithMerge pm l A target cx cy).length = l.length - 1 ∧
    B < l.length ∧ B ≠ A ∧
    (dragMoveMergeStep pm l A target cx cy).1.getD A ⟨0, 0⟩ = l.getD B ⟨0, 0⟩ ∧
    (dragReleaseWithMerge pm l A target cx cy).getD (if B < A then B else B - 1) ⟨0, 0⟩
      = l.getD B ⟨0, 0⟩ := by
  obtain ⟨hBlen, hBA⟩ := findMergeCandidate_some _ _ _ _ _ _ _ _ hB
  have hstep : dragMoveMergeStep pm l A target cx cy
      = (updateVertex (updateVertex l (A : ℤ) target) (A : ℤ) (l.getD B ⟨0, 0⟩), some B) := by
    simp only [dragMoveMergeStep, hB]
  have hlen2 : (updateVertex (updateVertex l (A : ℤ) target) (A : ℤ)
      (l.getD B ⟨0, 0⟩)).length = l.length := by
    rw [length_updateVertex, length_updateVertex]
  have hrel : dragReleaseWithMerge pm l A target cx cy
      = deleteVertex (updateVertex (updateVertex l (A : ℤ) target) (A : ℤ)
          (l.getD B ⟨0, 0⟩)) (A : ℤ) := by
    simp only [dragReleaseWithMerge, hstep, pointerUpMerge]
  have herase : dragReleaseWithMerge pm l A target cx cy
      = (updateVertex (updateVertex l (A : ℤ) target) (A : ℤ)
          (l.getD B ⟨0, 0⟩)).eraseIdx A := by
    rw [hrel]
    exact deleteVertex_eq_eraseIdx _ _ A (by omega) rfl (by omega)
  have hl2get : ∀ k : ℕ, k < l.length → k ≠ A →
      (updateVertex (updateVertex l (A : ℤ) target) (A : ℤ) (l.getD B ⟨0, 0⟩)).getD k ⟨0, 0⟩
        = l.getD k ⟨0, 0⟩ := by
    intro k hk hkA
    have hkA' : (k : ℤ) ≠ (A : ℤ) := by exact_mod_cast hkA
    rw [getD_updateVertex, if_pos (by rwa [length_updateVertex]), if_neg hkA',
      getD_updateVertex, if_pos hk, if_neg hkA']
  refine ⟨?_, hBlen, hBA, ?_, ?_⟩
  · rw [herase, List.length_eraseIdx_of_lt (by omega)]
    rw [hlen2]
  · rw [hstep]
    simp only
    rw [getD_updateVertex, if_pos (by rwa [length_updateVertex]), if_pos rfl]
  · rw [herase]
    by_cases hBlt : B < A
    · rw [if_pos hBlt]
      have hb : B < ((updateVertex (updateVertex l (A : ℤ) target) (A : ℤ)
          (l.getD B ⟨0, 0⟩)).eraseIdx A).length := by
        rw [List.length_eraseIdx_of_lt (by omega), hlen2]
        omega
      rw [List.getD_eq_getElem _ _ hb,
        List.getElem_eraseIdx_of_lt _ _ _ _ hBlt,
        ← List.getD_eq_getElem _ ⟨0, 0⟩ (by omega),
        hl2get B (by omega) (by omega)]
    · rw [if_neg hBlt]
      have hAB : A < B := by omega
      have hb : B - 1 < ((updateVertex (updateVertex l (A : ℤ) target) (A : ℤ)
          (l.getD B ⟨0, 0⟩)).eraseIdx A).length := by
        rw [List.length_eraseIdx_of_lt (by omega), hlen2]
        omega
      rw [List.getD_eq_getElem _ _ hb,
        List.getElem_eraseIdx_of_ge _ _ _ _ (by omega)]
      have hsub : B - 1 + 1 = B := by omega
      simp only [hsub]
      rw [← List.getD_eq_getElem _ ⟨0, 0⟩ (by omega),
        hl2get B (by omega) (by omega)]

/-- C7 counterexample: on a 3-vertex polygon (triangle), dragging vertex
0 exactly onto vertex 1 records a merge candidate, but releasing does
NOT produce a polygon with one fewer vertex: the delete is blocked by
the minimum-3 invariant and the length stays 3. -/
theorem dragRelease_triangle_no_merge :
    (dragMoveMergeStep 100 [⟨0, 0⟩, ⟨1/20, 0⟩, ⟨0, 1⟩] 0 ⟨1/20, 0⟩ 0 0).2 = some 1 ∧
    (dragReleaseWithMerge 100 [⟨0, 0⟩, ⟨1/20, 0⟩, ⟨0, 1⟩] 0 ⟨1/20, 0⟩ 0 0).length
      = ([⟨0, 0⟩, ⟨1/20, 0⟩, ⟨0, 1⟩] : List Vec2).length ∧
    (dragReleaseWithMerge 100 [⟨0, 0⟩, ⟨1/20, 0⟩, ⟨0, 1⟩] 0 ⟨1/20, 0⟩ 0 0).length
      ≠ ([⟨0, 0⟩, ⟨1/20, 0⟩, ⟨0, 1⟩] : List Vec2).length - 1 := by
  refine ⟨?_, ?_, ?_⟩ <;>
    norm_num [dragReleaseWithMerge, dragMoveMergeStep, findMergeCandidate, mergeStep,
      nearestD2, worldToCanvas, updateVertex, mapIdxFrom, pointerUpMerge, deleteVertex,
      MERGE_SNAP_PX, List.enum_eq_enumFrom, List.enumFrom]

/-- C7 witness: on the 4-vertex default square, dragging vertex 0 onto
vertex 1 (world (2, -1.5)) and releasing merges: one fewer vertex, and
vertex 1's original position survives at index 0. -/
theorem dragRelease_merge_spec_witness :
    (dragReleaseWithMerge 100 defaultVertices 0 ⟨2, -3/2⟩ 0 0).length
        = defaultVertices.length - 1 ∧
    1 < defaultVertices.length ∧ (1 : ℕ) ≠ 0 ∧
    (dragMoveMergeStep 100 defaultVertices 0 ⟨2, -3/2⟩ 0 0).1.getD 0 ⟨0, 0⟩
        = defaultVertices.getD 1 ⟨0, 0⟩ ∧
    (dragReleaseWithMerge 100 defaultVertices 0 ⟨2, -3/2⟩ 0 0).getD
        (if (1 : ℕ) < 0 then 1 else 1 - 1) ⟨0, 0⟩ = defaultVertices.getD 1 ⟨0, 0⟩ :=
  dragRelease_merge_spec 100 0 0 defaultVertices 0 1 ⟨2, -3/2⟩
    (by simp [defaultVertices]) (by simp [defaultVertices])
    (by norm_num [findMergeCandidate, mergeStep, nearestD2, worldToCanvas,
      MERGE_SNAP_PX, defaultVertices, List.enum_eq_enumFrom, List.enumFrom])
